import Mathlib

/-!
Verification of the streaming-inference core of the spatiotemporal-models
tutorial notebook (Brainchip bc_cloud_examples): FIFO-buffered causal
temporal convolutions, the model-graph conversion to buffered layers, the
exponentially-decayed streaming aggregator, and the notebook's own
hardware-mapping cell.  Frames are modelled per spatial location as
rational scalars; a temporal-convolution kernel is the list of its
temporal taps.
-/

namespace SpatioTemporal

/-- Dot product of a kernel with a window of input samples
(truncating to the shorter list, as in the sliding-window readout). -/
def dotQ (w x : List ℚ) : ℚ :=
  (List.zipWith (fun a b => a * b) w x).sum

/-- Modelled from the spec: the whole-sequence Causal Convolution Operator
(`akida_models` temporal-conv layers, not shipped in this repository).
The input sequence is left-padded with `w.length - 1` zero frames and the
kernel slides over it with temporal stride 1, producing one output per
input time step. -/
def causalConv (w x : List ℚ) : List ℚ :=
  let padded := List.replicate (w.length - 1) (0 : ℚ) ++ x
  (List.range x.length).map (fun t => dotQ w ((padded.drop t).take w.length))

/-- Modelled from the spec: the FIFO Buffer backing a bufferized temporal
convolution (`BufferTempConv` of `akida_models`, not shipped in this
repository): a fixed-capacity queue of the most recent samples. -/
structure Fifo where
  cap : ℕ
  data : List ℚ
  deriving DecidableEq, Repr

/-- Modelled from the spec: a freshly constructed buffer is filled with
zeros (simulating the causal left-padding at sequence start). -/
def Fifo.init (c : ℕ) : Fifo :=
  ⟨c, List.replicate c 0⟩

/-- Modelled from the spec: `push` inserts the newest sample and evicts
the oldest when the buffer is at capacity. -/
def Fifo.push (b : Fifo) (v : ℚ) : Fifo :=
  if b.data.length < b.cap then ⟨b.cap, b.data ++ [v]⟩
  else ⟨b.cap, b.data.tail ++ [v]⟩

/-- Modelled from the spec: `read` returns the buffer contents ordered
oldest-to-newest, ready for the dot product with the kernel. -/
def Fifo.read (b : Fifo) : List ℚ :=
  b.data

/-- Modelled from the spec: `reset` clears the buffer back to the
zero-initialized state of its fixed capacity. -/
def Fifo.reset (b : Fifo) : Fifo :=
  Fifo.init b.cap

/-- Push a whole sequence of samples, oldest first. -/
def Fifo.pushAll (b : Fifo) (vs : List ℚ) : Fifo :=
  vs.foldl Fifo.push b

/-- Modelled from the spec: one streaming step of the Bufferized Layer
Adapter: push the incoming frame, then dot the buffer contents with the
unmodified kernel. -/
def streamStep (w : List ℚ) (b : Fifo) (v : ℚ) : Fifo × ℚ :=
  let b' := b.push v
  (b', dotQ w b'.read)

/-- Feed a sequence of frames one at a time through the bufferized layer,
collecting the per-frame outputs. -/
def streamRun (w : List ℚ) (b : Fifo) : List ℚ → List ℚ
  | [] => []
  | v :: vs =>
      let s := streamStep w b v
      s.2 :: streamRun w s.1 vs

/-- Dropping `t+1` elements of `L ++ vs` (for nonempty `L`) is dropping
`t` elements of `L.tail ++ vs`. -/
lemma drop_succ_append (L vs : List ℚ) (h : L ≠ []) (t : ℕ) :
    (L ++ vs).drop (t + 1) = (L.tail ++ vs).drop t := by
  cases L with
  | nil => exact absurd rfl h
  | cons a l => simp

/-- Streaming from a full buffer `b` computes, at each step `t`, the dot
product of the kernel with the length-`w.length` window of `b.tail ++ x`
starting at `t`. -/
lemma streamRun_windows (w : List ℚ) :
    ∀ (x b : List ℚ), b.length = w.length → 1 ≤ w.length →
    streamRun w ⟨w.length, b⟩ x
      = (List.range x.length).map
          (fun t => dotQ w (((b.tail ++ x).drop t).take w.length)) := by
  intro x
  induction x with
  | nil => intro b hb hw; simp [streamRun]
  | cons v vs ih =>
      intro b hb hw
      have hbne : b ≠ [] := by
        intro h
        rw [h] at hb
        simp at hb
        omega
      have hpush : Fifo.push ⟨w.length, b⟩ v = ⟨w.length, b.tail ++ [v]⟩ := by
        simp [Fifo.push, hb]
      have hlen : (b.tail ++ [v]).length = w.length := by
        simp [List.length_tail]
        omega
      have hLne : b.tail ++ [v] ≠ [] := by simp
      rw [streamRun, streamStep]
      simp only [hpush, Fifo.read]
      rw [ih (b.tail ++ [v]) hlen hw]
      rw [List.length_cons, List.range_succ_eq_map, List.map_cons, List.map_map]
      congr 1
      · rw [List.drop_zero]
        have he : b.tail ++ v :: vs = (b.tail ++ [v]) ++ vs := by simp
        rw [he, ← hlen, List.take_left]
      · apply List.map_congr_left
        intro t _
        simp only [Function.comp]
        have he : b.tail ++ v :: vs = (b.tail ++ [v]) ++ vs := by simp
        rw [he, drop_succ_append _ _ hLne]

/-- C1. Streaming/batch causal equivalence: for every temporal-convolution
kernel `w` of temporal size at least 1 and every input sequence `x`,
feeding the frames one at a time through the Bufferized Layer Adapter
(FIFO buffer reset to all-zero before frame 0) yields at each time step
exactly the corresponding output time-step of the whole-sequence causal
convolution (left-padded with `w.length - 1` zero frames, temporal
stride 1) of the same sequence. -/
theorem streaming_matches_causal (w x : List ℚ) (hw : 1 ≤ w.length) :
    streamRun w (Fifo.init w.length) x = causalConv w x := by
  have h := streamRun_windows w x (List.replicate w.length 0) (by simp) hw
  rw [Fifo.init] at *
  rw [h, causalConv]
  have ht : (List.replicate w.length (0 : ℚ)).tail
      = List.replicate (w.length - 1) 0 := by
    cases hn : w.length with
    | zero => omega
    | succ n => simp [List.replicate_succ]
  rw [ht]

/-- Witness for C1: a concrete kernel of temporal size 2 and a concrete
3-frame sequence on which both modes agree. -/
theorem streaming_matches_causal_witness :
    1 ≤ ([(1 : ℚ), 2]).length ∧
      streamRun [(1 : ℚ), 2] (Fifo.init ([(1 : ℚ), 2]).length) [3, 4, 5]
        = causalConv [(1 : ℚ), 2] [3, 4, 5] :=
  ⟨by decide, streaming_matches_causal [(1 : ℚ), 2] [3, 4, 5] (by decide)⟩

/-- A push on a buffer at capacity evicts the oldest element (list head)
and appends the newest at the tail end. -/
lemma push_at_capacity (b : Fifo) (v : ℚ) (h : b.data.length = b.cap) :
    b.push v = ⟨b.cap, b.data.tail ++ [v]⟩ := by
  simp [Fifo.push, h]

/-- Pushing a whole sequence into a full buffer of capacity `c` leaves
exactly the last `c` elements of old-contents-then-pushes. -/
lemma pushAll_data (c : ℕ) (hc : 1 ≤ c) :
    ∀ (vs b : List ℚ), b.length = c →
    (Fifo.pushAll ⟨c, b⟩ vs).data = (b ++ vs).drop vs.length := by
  intro vs
  induction vs with
  | nil => intro b hb; simp [Fifo.pushAll]
  | cons v vs ih =>
      intro b hb
      have hbne : b ≠ [] := by
        intro h; rw [h] at hb; simp at hb; omega
      have hstep : Fifo.pushAll ⟨c, b⟩ (v :: vs)
          = Fifo.pushAll ⟨c, b.tail ++ [v]⟩ vs := by
        simp [Fifo.pushAll, Fifo.push, hb]
      have hlen : (b.tail ++ [v]).length = c := by
        simp [List.length_tail]; omega
      rw [hstep, ih _ hlen]
      cases b with
      | nil => exact absurd rfl hbne
      | cons a l => simp [List.length_cons]

/-- C4. FIFO buffer contents invariant: for every buffer of capacity
`c ≥ 1` and every sequence of at least `c` pushes, a subsequent `read`
returns exactly `c` elements, namely the `c` most recently pushed
elements in insertion order (oldest-to-newest). -/
theorem fifo_contents (c : ℕ) (vs : List ℚ) (hc : 1 ≤ c) (hn : c ≤ vs.length) :
    ((Fifo.init c).pushAll vs).read.length = c ∧
      ((Fifo.init c).pushAll vs).read = vs.drop (vs.length - c) := by
  have hdata : ((Fifo.init c).pushAll vs).data
      = (List.replicate c (0 : ℚ) ++ vs).drop vs.length :=
    pushAll_data c hc vs (List.replicate c 0) (by simp)
  have hsplit : (List.replicate c (0 : ℚ) ++ vs).drop vs.length
      = vs.drop (vs.length - c) := by
    have h1 : vs.length = (List.replicate c (0 : ℚ)).length + (vs.length - c) := by
      simp; omega
    nth_rewrite 1 [h1]
    rw [List.drop_append]
  constructor
  · rw [Fifo.read, hdata, hsplit]
    simp
    omega
  · rw [Fifo.read, hdata, hsplit]

/-- Witness for C4: a capacity-2 buffer after three pushes reads back the
last two pushed values in insertion order. -/
theorem fifo_contents_witness :
    (1 ≤ 2 ∧ 2 ≤ ([(5 : ℚ), 7, 11]).length) ∧
      ((Fifo.init 2).pushAll [(5 : ℚ), 7, 11]).read.length = 2 ∧
        ((Fifo.init 2).pushAll [(5 : ℚ), 7, 11]).read
          = ([(5 : ℚ), 7, 11]).drop (([(5 : ℚ), 7, 11]).length - 2) :=
  ⟨⟨by decide, by decide⟩, fifo_contents 2 [(5 : ℚ), 7, 11] (by decide) (by decide)⟩

/-- The two lifecycle operations a FIFO buffer supports after
construction: pushing one sample and resetting. -/
inductive BufOp where
  | push (v : ℚ)
  | reset
  deriving DecidableEq, Repr

/-- Apply one lifecycle operation to a buffer. -/
def Fifo.applyOp (b : Fifo) : BufOp → Fifo
  | .push v => b.push v
  | .reset => b.reset

/-- Apply a whole history of lifecycle operations to a buffer. -/
def Fifo.applyOps (b : Fifo) (ops : List BufOp) : Fifo :=
  ops.foldl Fifo.applyOp b

/-- Neither pushing nor resetting ever changes a buffer's capacity. -/
lemma applyOps_cap : ∀ (ops : List BufOp) (b : Fifo), (b.applyOps ops).cap = b.cap := by
  intro ops
  induction ops with
  | nil => intro b; rfl
  | cons op ops ih =>
      intro b
      have hstep : b.applyOps (op :: ops) = (b.applyOp op).applyOps ops := rfl
      rw [hstep, ih]
      cases op with
      | push v =>
          simp only [Fifo.applyOp, Fifo.push]
          split <;> rfl
      | reset => rfl

/-- Modelled from the spec: the Bufferized Layer Adapter
(`BufferTempConv` of `akida_models`, not shipped in this repository)
pairs the unmodified temporal kernel with a FIFO buffer whose capacity
is the temporal kernel size. -/
structure BufferTempConv where
  kernel : List ℚ
  buffer : Fifo
  deriving DecidableEq, Repr

/-- Modelled from the spec: construction of the adapter from a trained
temporal-convolution kernel: the buffer capacity equals the temporal
kernel size and the buffer starts zero-filled. -/
def BufferTempConv.make (w : List ℚ) : BufferTempConv :=
  ⟨w, Fifo.init w.length⟩

/-- C3. FIFO buffer capacity value: the buffer allocated by the
Bufferized Layer Adapter for a temporal kernel `w` has capacity exactly
`w.length` (the temporal kernel size, not the size minus one), and the
capacity is fixed at construction: no history of push/reset operations
ever changes it. -/
theorem buffer_capacity (w : List ℚ) (ops : List BufOp) :
    (BufferTempConv.make w).buffer.cap = w.length ∧
      ((BufferTempConv.make w).buffer.applyOps ops).cap = w.length := by
  constructor
  · rfl
  · rw [applyOps_cap]
    rfl

/-- The `t`-th output of the causal convolution is the dot product of the
kernel with the window of the left-padded input starting at `t`. -/
lemma causalConv_getD (w x : List ℚ) (t : ℕ) (ht : t < x.length) :
    (causalConv w x).getD t 0
      = dotQ w (((List.replicate (w.length - 1) (0 : ℚ) ++ x).drop t).take w.length) := by
  unfold causalConv
  rw [List.getD_eq_getElem?_getD, List.getElem?_map, List.getElem?_range ht]
  rfl

/-- The window of the left-padded input read at step `t` only looks at
the first `t + 1` frames of the input. -/
lemma window_take (w : List ℚ) (hw : 1 ≤ w.length) (z : List ℚ) (t : ℕ) :
    ((List.replicate (w.length - 1) (0 : ℚ) ++ z).drop t).take w.length
      = (List.replicate (w.length - 1) (0 : ℚ) ++ z.take (t + 1)).drop t := by
  have h1 : ((List.replicate (w.length - 1) (0 : ℚ) ++ z).take (t + w.length)).drop t
      = ((List.replicate (w.length - 1) (0 : ℚ) ++ z).drop t).take w.length := by
    rw [List.drop_take]
    congr 1
    omega
  rw [← h1]
  congr 1
  rw [List.take_append_eq_append_take]
  rw [List.take_of_length_le (by simp; omega)]
  congr 2
  simp
  omega

/-- C5. Causality: the whole-sequence Causal Convolution Operator's
output at time `t` depends only on input frames at times `≤ t`; two
input sequences that agree on their first `t + 1` frames produce equal
outputs at time step `t`. -/
theorem causal_no_future (w x y : List ℚ) (t : ℕ) (hx : t < x.length)
    (hy : t < y.length) (h : x.take (t + 1) = y.take (t + 1)) :
    (causalConv w x).getD t 0 = (causalConv w y).getD t 0 := by
  rcases Nat.eq_zero_or_pos w.length with hw | hw
  · rw [causalConv_getD w x t hx, causalConv_getD w y t hy]
    rw [List.length_eq_zero] at hw
    subst hw
    simp [dotQ]
  · rw [causalConv_getD w x t hx, causalConv_getD w y t hy,
        window_take w hw x t, window_take w hw y t, h]

/-- Witness for C5: two sequences that agree on their first two frames
but differ afterwards get the same output at time step 1. -/
theorem causal_no_future_witness :
    (1 < ([(3 : ℚ), 4, 5]).length ∧ 1 < ([(3 : ℚ), 4, 9]).length ∧
        ([(3 : ℚ), 4, 5]).take 2 = ([(3 : ℚ), 4, 9]).take 2) ∧
      (causalConv [(1 : ℚ), 2] [3, 4, 5]).getD 1 0
        = (causalConv [(1 : ℚ), 2] [3, 4, 9]).getD 1 0 :=
  ⟨⟨by decide, by decide, by decide⟩,
    causal_no_future [(1 : ℚ), 2] [3, 4, 5] [3, 4, 9] 1 (by decide) (by decide) (by decide)⟩

/-- Modelled from the spec: the decay-accumulation update of the
Streaming Aggregator (`evaluate_bufferized_model` smoothing of
`akida_models`, not shipped in this repository): the new belief is the
current frame's softmaxed score vector plus `d` times the previous
belief, elementwise, with no renormalization. -/
def beliefUpdate (d : ℚ) (b p : List ℚ) : List ℚ :=
  List.zipWith (fun pi bi => pi + d * bi) p b

/-- Modelled from the spec: the Streaming Aggregator state: a decay
factor and the running belief, empty before the first frame of a
sequence. -/
structure Aggregator where
  decay : ℚ
  belief : Option (List ℚ)
  deriving DecidableEq, Repr

/-- A fresh aggregator with decay factor `d` and empty belief. -/
def Aggregator.init (d : ℚ) : Aggregator := ⟨d, none⟩

/-- Consume one frame's softmaxed class-score vector: the first frame
becomes the belief unchanged; later frames are decay-accumulated. -/
def Aggregator.observe (a : Aggregator) (p : List ℚ) : Aggregator :=
  match a.belief with
  | none => ⟨a.decay, some p⟩
  | some b => ⟨a.decay, some (beliefUpdate a.decay b p)⟩

/-- Modelled from the spec: resetting the aggregator empties the belief
for the start of a new sequence. -/
def Aggregator.reset (a : Aggregator) : Aggregator := ⟨a.decay, none⟩

/-- The running beliefs produced while consuming a sequence of per-frame
softmaxed score vectors from aggregator state `a`. -/
def aggTrace (a : Aggregator) : List (List ℚ) → List (List ℚ)
  | [] => []
  | p :: ps =>
      let a' := a.observe p
      a'.belief.getD [] :: aggTrace a' ps

/-- The running beliefs over a whole sequence, starting from the empty
belief with decay factor `d`. -/
def runBeliefs (d : ℚ) (ps : List (List ℚ)) : List (List ℚ) :=
  aggTrace (Aggregator.init d) ps

/-- Index of the running maximum, scanning the remaining scores at index
`i` with current best index `bi` and best value `bv`; a strictly larger
value is required to displace the best, so ties keep the lowest index. -/
def argmaxFrom : ℕ → ℕ → ℚ → List ℚ → ℕ
  | _, bi, _, [] => bi
  | i, bi, bv, v :: vs =>
      if bv < v then argmaxFrom (i + 1) i v vs else argmaxFrom (i + 1) bi bv vs

/-- Modelled from the spec: the predicted class is the argmax of the
running belief, ties broken by lowest class index. -/
def argmaxQ : List ℚ → ℕ
  | [] => 0
  | v :: vs => argmaxFrom 1 0 v vs

/-- Unfolding one step of the belief trace from a non-empty belief. -/
lemma aggTrace_some (d : ℚ) (b p : List ℚ) (ps : List (List ℚ)) :
    aggTrace ⟨d, some b⟩ (p :: ps)
      = beliefUpdate d b p :: aggTrace ⟨d, some (beliefUpdate d b p)⟩ ps := rfl

/-- The belief trace from a non-empty belief satisfies the
decay-accumulation recurrence at every interior step. -/
lemma aggTrace_some_rec (d : ℚ) :
    ∀ (ps : List (List ℚ)) (b : List ℚ) (t : ℕ), t + 1 < ps.length →
    (aggTrace ⟨d, some b⟩ ps).getD (t + 1) []
      = beliefUpdate d ((aggTrace ⟨d, some b⟩ ps).getD t []) (ps.getD (t + 1) []) := by
  intro ps
  induction ps with
  | nil => intro b t ht; simp at ht
  | cons p ps ih =>
      intro b t ht
      rw [aggTrace_some]
      cases t with
      | zero =>
          cases ps with
          | nil => simp at ht
          | cons q ps' => simp [aggTrace_some]
      | succ s =>
          have hlt : s + 1 < ps.length := by
            simp at ht
            omega
          have hs := ih (beliefUpdate d b p) s hlt
          simpa using hs

/-- C2. Streaming Aggregator recurrence and worked example: the running
belief starts as the first frame's softmax output and thereafter
satisfies `belief_t = softmax_t + d * belief_(t-1)`; on the softmax
outputs `[0.9,0.1]`, `[0.2,0.8]`, `[0.1,0.9]` with decay factor `0.8`
the beliefs are exactly `[0.9,0.1]`, `[0.92,0.88]` (predicted class 0)
and `[0.836,1.604]` (predicted class 1), and no normalization is applied
after the decay-accumulation (the final belief does not sum to 1). -/
theorem aggregator_recurrence_and_example :
    (∀ (d : ℚ) (ps : List (List ℚ)), ps ≠ [] →
        (runBeliefs d ps).getD 0 [] = ps.getD 0 [])
      ∧ (∀ (d : ℚ) (ps : List (List ℚ)) (t : ℕ), t + 1 < ps.length →
          (runBeliefs d ps).getD (t + 1) []
            = beliefUpdate d ((runBeliefs d ps).getD t []) (ps.getD (t + 1) []))
      ∧ runBeliefs (4 / 5) [[9/10, 1/10], [2/10, 8/10], [1/10, 9/10]]
          = [[9/10, 1/10], [92/100, 88/100], [836/1000, 1604/1000]]
      ∧ argmaxQ [92/100, 88/100] = 0
      ∧ argmaxQ [836/1000, 1604/1000] = 1
      ∧ ([(836 : ℚ)/1000, 1604/1000]).sum ≠ 1 := by
  refine ⟨?_, ?_, ?_, ?_, ?_, ?_⟩
  case refine_3 =>
    norm_num [runBeliefs, aggTrace, Aggregator.init, Aggregator.observe, beliefUpdate]
  case refine_4 => norm_num [argmaxQ, argmaxFrom]
  case refine_5 => norm_num [argmaxQ, argmaxFrom]
  case refine_6 => norm_num
  · intro d ps hne
    cases ps with
    | nil => exact absurd rfl hne
    | cons p ps' => simp [runBeliefs, aggTrace, Aggregator.init, Aggregator.observe]
  · intro d ps t ht
    cases ps with
    | nil => simp at ht
    | cons p ps' =>
        have hrun : runBeliefs d (p :: ps') = p :: aggTrace ⟨d, some p⟩ ps' := by
          simp [runBeliefs, aggTrace, Aggregator.init, Aggregator.observe]
        rw [hrun]
        cases t with
        | zero =>
            cases ps' with
            | nil => simp at ht
            | cons q ps'' => simp [aggTrace_some]
        | succ s =>
            have hlt : s + 1 < ps'.length := by
              simp at ht
              omega
            have hs := aggTrace_some_rec d ps' p s hlt
            simpa using hs

/-- Witness for C2: the recurrence instantiated at the worked example's
third frame, with every hypothesis discharged on concrete input. -/
theorem aggregator_recurrence_and_example_witness :
    (([[(9 : ℚ)/10, 1/10], [2/10, 8/10], [1/10, 9/10]] : List (List ℚ)) ≠ []
        ∧ 1 + 1 < ([[(9 : ℚ)/10, 1/10], [2/10, 8/10], [1/10, 9/10]] : List (List ℚ)).length)
      ∧ (runBeliefs (4/5) [[(9 : ℚ)/10, 1/10], [2/10, 8/10], [1/10, 9/10]]).getD (1 + 1) []
          = beliefUpdate (4/5)
              ((runBeliefs (4/5) [[(9 : ℚ)/10, 1/10], [2/10, 8/10], [1/10, 9/10]]).getD 1 [])
              (([[(9 : ℚ)/10, 1/10], [2/10, 8/10], [1/10, 9/10]] : List (List ℚ)).getD (1 + 1) []) :=
  ⟨⟨by simp, by simp⟩,
    aggregator_recurrence_and_example.2.1 (4/5)
      [[(9 : ℚ)/10, 1/10], [2/10, 8/10], [1/10, 9/10]] 1 (by simp)⟩

/-- The lifecycle operations of the Streaming Aggregator: consuming one
frame's softmaxed scores and resetting for a new sequence. -/
inductive AggOp where
  | frame (p : List ℚ)
  | reset
  deriving DecidableEq, Repr

/-- Apply one lifecycle operation to an aggregator. -/
def Aggregator.applyOp (a : Aggregator) : AggOp → Aggregator
  | .frame p => a.observe p
  | .reset => a.reset

/-- Apply a whole history of lifecycle operations to an aggregator. -/
def Aggregator.applyOps (a : Aggregator) (ops : List AggOp) : Aggregator :=
  ops.foldl Aggregator.applyOp a

/-- Neither observing a frame nor resetting changes the decay factor. -/
lemma aggApplyOps_decay : ∀ (ops : List AggOp) (a : Aggregator),
    (a.applyOps ops).decay = a.decay := by
  intro ops
  induction ops with
  | nil => intro a; rfl
  | cons op ops ih =>
      intro a
      have hstep : a.applyOps (op :: ops) = (a.applyOp op).applyOps ops := rfl
      rw [hstep, ih]
      cases op with
      | frame p =>
          simp only [Aggregator.applyOp, Aggregator.observe]
          cases a.belief <;> rfl
      | reset => rfl

/-- C9. Reset idempotence: after any history of pushes, frames and prior
resets, `reset` returns the FIFO Buffer to the all-zero initial state
and the Streaming Aggregator to the empty-belief initial state, and on
both components `reset` composed with itself equals a single `reset`. -/
theorem reset_idempotence :
    (∀ (c : ℕ) (ops : List BufOp), ((Fifo.init c).applyOps ops).reset = Fifo.init c)
      ∧ (∀ (b : Fifo), b.reset.reset = b.reset)
      ∧ (∀ (d : ℚ) (ops : List AggOp),
          ((Aggregator.init d).applyOps ops).reset = Aggregator.init d)
      ∧ (∀ (a : Aggregator), a.reset.reset = a.reset) := by
  refine ⟨?_, ?_, ?_, ?_⟩
  · intro c ops
    rw [Fifo.reset, applyOps_cap]
    rfl
  · intro b
    rfl
  · intro d ops
    rw [Aggregator.reset, aggApplyOps_decay]
    rfl
  · intro a
    rfl

/-- Modelled from the spec: the per-sequence streaming state of the
converted model: one FIFO buffer (per layer/spatial location) and one
running-belief aggregator, owned by exactly one in-flight sequence. -/
structure StreamState where
  buf : Fifo
  agg : Aggregator
  deriving DecidableEq, Repr

/-- One frame-step of a sequence's pipeline: the buffered layer consumes
the frame, then the aggregator consumes the layer's output; the emitted
pair is the layer output and the running belief. -/
def pipeStep (w : List ℚ) (s : StreamState) (v : ℚ) : StreamState × (ℚ × List ℚ) :=
  let r := streamStep w s.buf v
  let a' := s.agg.observe [r.2]
  (⟨r.1, a'⟩, (r.2, a'.belief.getD []))

/-- Run one sequence through its own pipeline state, frame by frame. -/
def pipeRun (w : List ℚ) (s : StreamState) : List ℚ → List (ℚ × List ℚ)
  | [] => []
  | v :: vs =>
      let r := pipeStep w s v
      r.2 :: pipeRun w r.1 vs

/-- Run two independent sequences concurrently through the same
converted model, interleaving one frame of each per step, each sequence
on its own buffer/belief instances. -/
def pipeRunTwo (w : List ℚ) :
    StreamState → StreamState → List (ℚ × ℚ) → List ((ℚ × List ℚ) × (ℚ × List ℚ))
  | _, _, [] => []
  | sa, sb, (va, vb) :: rest =>
      let ra := pipeStep w sa va
      let rb := pipeStep w sb vb
      (ra.2, rb.2) :: pipeRunTwo w ra.1 rb.1 rest

/-- The first sequence's outputs of an interleaved two-sequence run are
exactly a solo run of the first sequence. -/
lemma pipeRunTwo_fst (w : List ℚ) :
    ∀ (xs ys : List ℚ) (sa sb : StreamState), ys.length = xs.length →
    (pipeRunTwo w sa sb (xs.zip ys)).map Prod.fst = pipeRun w sa xs := by
  intro xs
  induction xs with
  | nil => intro ys sa sb h; simp [pipeRun, pipeRunTwo]
  | cons v vs ih =>
      intro ys sa sb h
      cases ys with
      | nil => simp at h
      | cons u us =>
          simp only [List.zip_cons_cons, pipeRunTwo, pipeRun, List.map_cons]
          congr 1
          exact ih us _ _ (by simpa using h)

/-- The second sequence's outputs of an interleaved two-sequence run are
exactly a solo run of the second sequence. -/
lemma pipeRunTwo_snd (w : List ℚ) :
    ∀ (xs ys : List ℚ) (sa sb : StreamState), ys.length = xs.length →
    (pipeRunTwo w sa sb (xs.zip ys)).map Prod.snd = pipeRun w sb ys := by
  intro xs
  induction xs with
  | nil =>
      intro ys sa sb h
      have hnil : ys = [] := by
        cases ys with
        | nil => rfl
        | cons u us => simp at h
      subst hnil
      simp [pipeRun, pipeRunTwo]
  | cons v vs ih =>
      intro ys sa sb h
      cases ys with
      | nil => simp at h
      | cons u us =>
          simp only [List.zip_cons_cons, pipeRunTwo, pipeRun, List.map_cons]
          congr 1
          exact ih us _ _ (by simpa using h)

/-- C6. Sequence isolation: running two independent sequences through
the same converted model concurrently, each with its own FIFO buffer and
running-belief instances, the outputs produced for the first sequence do
not depend on the second sequence (replacing it by any other sequence
gives identical outputs), and each sequence's outputs equal a solo run
of that sequence alone. -/
theorem sequence_isolation (w : List ℚ) (d : ℚ) (xs ys ys' : List ℚ)
    (hy : ys.length = xs.length) (hy' : ys'.length = xs.length) :
    (pipeRunTwo w ⟨Fifo.init w.length, Aggregator.init d⟩
          ⟨Fifo.init w.length, Aggregator.init d⟩ (xs.zip ys)).map Prod.fst
        = (pipeRunTwo w ⟨Fifo.init w.length, Aggregator.init d⟩
            ⟨Fifo.init w.length, Aggregator.init d⟩ (xs.zip ys')).map Prod.fst
      ∧ (pipeRunTwo w ⟨Fifo.init w.length, Aggregator.init d⟩
            ⟨Fifo.init w.length, Aggregator.init d⟩ (xs.zip ys)).map Prod.fst
          = pipeRun w ⟨Fifo.init w.length, Aggregator.init d⟩ xs
      ∧ (pipeRunTwo w ⟨Fifo.init w.length, Aggregator.init d⟩
            ⟨Fifo.init w.length, Aggregator.init d⟩ (xs.zip ys)).map Prod.snd
          = pipeRun w ⟨Fifo.init w.length, Aggregator.init d⟩ ys := by
  refine ⟨?_, ?_, ?_⟩
  · rw [pipeRunTwo_fst w xs ys _ _ hy, pipeRunTwo_fst w xs ys' _ _ hy']
  · exact pipeRunTwo_fst w xs ys _ _ hy
  · exact pipeRunTwo_snd w xs ys _ _ hy

/-- Witness for C6: two concrete 2-frame sequences run concurrently,
with the second replaced by a third of the same length. -/
theorem sequence_isolation_witness :
    (([(3 : ℚ), 4]).length = ([(1 : ℚ), 2]).length
        ∧ ([(5 : ℚ), 6]).length = ([(1 : ℚ), 2]).length)
      ∧ ((pipeRunTwo [(1 : ℚ), 2] ⟨Fifo.init ([(1 : ℚ), 2]).length, Aggregator.init (4/5)⟩
            ⟨Fifo.init ([(1 : ℚ), 2]).length, Aggregator.init (4/5)⟩
            (([(1 : ℚ), 2]).zip [3, 4])).map Prod.fst
          = (pipeRunTwo [(1 : ℚ), 2] ⟨Fifo.init ([(1 : ℚ), 2]).length, Aggregator.init (4/5)⟩
              ⟨Fifo.init ([(1 : ℚ), 2]).length, Aggregator.init (4/5)⟩
              (([(1 : ℚ), 2]).zip [5, 6])).map Prod.fst
        ∧ (pipeRunTwo [(1 : ℚ), 2] ⟨Fifo.init ([(1 : ℚ), 2]).length, Aggregator.init (4/5)⟩
              ⟨Fifo.init ([(1 : ℚ), 2]).length, Aggregator.init (4/5)⟩
              (([(1 : ℚ), 2]).zip [3, 4])).map Prod.fst
            = pipeRun [(1 : ℚ), 2] ⟨Fifo.init ([(1 : ℚ), 2]).length, Aggregator.init (4/5)⟩ [1, 2]
        ∧ (pipeRunTwo [(1 : ℚ), 2] ⟨Fifo.init ([(1 : ℚ), 2]).length, Aggregator.init (4/5)⟩
              ⟨Fifo.init ([(1 : ℚ), 2]).length, Aggregator.init (4/5)⟩
              (([(1 : ℚ), 2]).zip [3, 4])).map Prod.snd
            = pipeRun [(1 : ℚ), 2] ⟨Fifo.init ([(1 : ℚ), 2]).length, Aggregator.init (4/5)⟩ [3, 4]) :=
  ⟨⟨by decide, by decide⟩,
    sequence_isolation [(1 : ℚ), 2] (4/5) [1, 2] [3, 4] [5, 6] (by decide) (by decide)⟩

/-- A layer of the trained model graph, embedded from the notebook's
description: a temporal convolution carrying its temporal kernel, or any
other (non-temporal) layer with an opaque tag and its parameters. -/
inductive Layer where
  | tempConv (w : List ℚ)
  | other (tag : ℕ) (params : List ℚ)
  deriving DecidableEq, Repr

/-- A layer of the converted (inference-time) model graph: a bufferized
temporal convolution, a plain 2D convolution, or an untouched
non-temporal layer. -/
inductive RtLayer where
  | buffered (l : BufferTempConv)
  | spatial2d (w : List ℚ)
  | other (tag : ℕ) (params : List ℚ)
  deriving DecidableEq, Repr

/-- The learned parameters carried by a trained layer. -/
def Layer.params : Layer → List ℚ
  | .tempConv w => w
  | .other _ p => p

/-- The learned parameters carried by a converted layer. -/
def RtLayer.params : RtLayer → List ℚ
  | .buffered l => l.kernel
  | .spatial2d w => w
  | .other _ p => p

/-- Whether a converted layer owns any mutable buffer state. -/
def RtLayer.hasState : RtLayer → Bool
  | .buffered _ => true
  | _ => false

/-- Modelled from the spec: per-layer conversion performed by
`convert_to_buffer` of `akida_models` (not shipped in this repository):
a temporal kernel of size 1 becomes a plain 2D convolution with no
buffer; a larger temporal kernel becomes a bufferized convolution; any
other layer passes through unchanged. -/
def convertLayer : Layer → RtLayer
  | .tempConv w =>
      if w.length = 1 then .spatial2d w else .buffered (BufferTempConv.make w)
  | .other tag p => .other tag p

/-- Modelled from the spec: the Model Graph Converter walks the layer
list in order and converts each layer in place. -/
def convert_to_buffer (m : List Layer) : List RtLayer :=
  m.map convertLayer

/-- The 2D convolution applied independently to a single incoming frame,
per spatial location: the single temporal tap scales the frame. -/
def spatial2dApply (w : List ℚ) (v : ℚ) : ℚ := w.headD 0 * v

/-- Streaming execution of a converted layer on a frame sequence. -/
def RtLayer.run : RtLayer → List ℚ → List ℚ
  | .buffered l, x => streamRun l.kernel l.buffer x
  | .spatial2d w, x => x.map (spatial2dApply w)
  | .other _ _, x => x

/-- For a singleton temporal kernel, the whole-sequence causal
convolution acts frame by frame as the plain 2D convolution. -/
lemma causalConv_single_cons (a : ℚ) (x : List ℚ) :
    causalConv [a] x = x.map (spatial2dApply [a]) := by
  have hconv : causalConv [a] x
      = (List.range x.length).map (fun t => dotQ [a] ((x.drop t).take 1)) := by
    simp [causalConv]
  rw [hconv]
  apply List.ext_getElem
  · simp
  · intro i h1 h2
    have hx : i < x.length := by simpa using h2
    rw [List.getElem_map, List.getElem_map, List.getElem_range]
    rw [List.drop_eq_getElem_cons hx, List.take_succ_cons, List.take_zero]
    simp [dotQ, spatial2dApply]

/-- `causalConv_single_cons` for any kernel of temporal size 1. -/
lemma causalConv_single (w : List ℚ) (hw : w.length = 1) (x : List ℚ) :
    causalConv w x = x.map (spatial2dApply w) := by
  obtain ⟨a, rfl⟩ := List.length_eq_one.mp hw
  exact causalConv_single_cons a x

/-- C7. Degenerate spatial-only conversion: a layer with temporal kernel
size 1 is converted to a layer with no buffer state whose streaming run
applies the equivalent 2D convolution independently to each incoming
frame, and that per-frame 2D convolution agrees with the original
whole-sequence causal convolution. -/
theorem spatial_only_conversion (w : List ℚ) (hw : w.length = 1) :
    (convertLayer (.tempConv w)).hasState = false
      ∧ (∀ x : List ℚ, (convertLayer (.tempConv w)).run x = x.map (spatial2dApply w))
      ∧ (∀ x : List ℚ, x.map (spatial2dApply w) = causalConv w x) := by
  have hc : convertLayer (.tempConv w) = .spatial2d w := by
    simp [convertLayer, hw]
  refine ⟨?_, ?_, ?_⟩
  · rw [hc]; rfl
  · intro x; rw [hc]; rfl
  · intro x; rw [causalConv_single w hw x]

/-- Witness for C7: the singleton kernel `[3]` converts to a stateless
2D convolution matching the causal convolution on a concrete frame
sequence. -/
theorem spatial_only_conversion_witness :
    ([(3 : ℚ)]).length = 1
      ∧ ((convertLayer (.tempConv [(3 : ℚ)])).hasState = false
        ∧ (∀ x : List ℚ, (convertLayer (.tempConv [(3 : ℚ)])).run x
            = x.map (spatial2dApply [(3 : ℚ)]))
        ∧ (∀ x : List ℚ, x.map (spatial2dApply [(3 : ℚ)])
            = causalConv [(3 : ℚ)] x)) :=
  ⟨by decide, spatial_only_conversion [(3 : ℚ)] (by decide)⟩

/-- C8. Model Graph Converter frame property: conversion preserves the
graph's topology (same number and ordering of layers, each converted in
place), leaves every non-temporal layer unchanged, replaces every
temporal layer by its bufferized (or degenerate 2D) counterpart, and
preserves every layer's parameter values exactly. -/
theorem convert_frame (m : List Layer) :
    (convert_to_buffer m).length = m.length
      ∧ (∀ i, i < m.length →
          ((convert_to_buffer m).getD i (.other 0 [])).params
            = (m.getD i (.other 0 [])).params)
      ∧ (∀ i tag p, i < m.length → m.getD i (.other 0 []) = .other tag p →
          (convert_to_buffer m).getD i (.other 0 []) = .other tag p)
      ∧ (∀ i w, i < m.length → m.getD i (.other 0 []) = .tempConv w →
          (convert_to_buffer m).getD i (.other 0 [])
            = if w.length = 1 then .spatial2d w
              else .buffered (BufferTempConv.make w)) := by
  have hget : ∀ i, i < m.length →
      (convert_to_buffer m).getD i (.other 0 [])
        = convertLayer (m.getD i (.other 0 [])) := by
    intro i hi
    rw [List.getD_eq_getElem _ _ (by simpa [convert_to_buffer] using hi),
        List.getD_eq_getElem _ _ hi]
    simp [convert_to_buffer]
  refine ⟨by simp [convert_to_buffer], ?_, ?_, ?_⟩
  · intro i hi
    rw [hget i hi]
    cases m.getD i (.other 0 []) with
    | tempConv w =>
        simp only [convertLayer]
        split
        · rfl
        · rfl
    | other tag p => rfl
  · intro i tag p hi hm
    rw [hget i hi, hm]
    rfl
  · intro i w hi hm
    rw [hget i hi, hm]
    rfl

/-- Witness for C8: a concrete two-layer graph (one temporal, one
non-temporal) whose conversion preserves parameters at index 0. -/
theorem convert_frame_witness :
    0 < ([Layer.tempConv [1, 2], Layer.other 5 [7]]).length
      ∧ ((convert_to_buffer [Layer.tempConv [1, 2], Layer.other 5 [7]]).getD 0
            (.other 0 [])).params
          = (([Layer.tempConv [1, 2], Layer.other 5 [7]]).getD 0 (.other 0 [])).params :=
  ⟨by decide,
    (convert_frame [Layer.tempConv [1, 2], Layer.other 5 [7]]).2.1 0 (by decide)⟩

/-- The Python names the notebook's code cells manipulate, embedded from
the notebook source. -/
inductive PyName where
  | input_shape | sampling_frequency | input_scaling | n_classes
  | tenn_spatiotemporal_jester | model
  | batch_size | os | fetch_file | get_data | data_path | data_dir
  | val_dataset | val_steps | csv | csvfile | class_names
  | get_model_path | load_model | compile_model | model_name_v2
  | file_hash_v2 | model_path | model_name | file_hash
  | hist | convert_to_buffer
  | akida | set_akida_version | AkidaVersion | devices | device
  | model_akida
  deriving DecidableEq, Repr

/-- Every name bound (by assignment, import or with-binding) in the
notebook's code cells before the `model_akida.map(device)` call of the
device-mapping cell, in source order; embedded from the notebook. -/
def notebookBoundNames : List PyName :=
  [.input_shape, .sampling_frequency, .input_scaling, .n_classes,
   .tenn_spatiotemporal_jester, .model,
   .batch_size, .os, .fetch_file, .get_data, .data_path, .data_dir,
   .val_dataset, .val_steps, .csv, .csvfile, .class_names,
   .get_model_path, .load_model, .compile_model, .model_name_v2,
   .file_hash_v2, .model_path, .model_name, .file_hash,
   .hist, .convert_to_buffer,
   .akida, .set_akida_version, .AkidaVersion, .devices, .device]

/-- The exception relevant to the device-mapping cell: Python's
`NameError`, raised when a name is evaluated without being bound. -/
inductive PyExc where
  | nameError (n : PyName)
  deriving DecidableEq, Repr

/-- Evaluating a bare name against the environment of bound names:
unbound names raise `NameError`. -/
def lookupName (env : List PyName) (n : PyName) : Except PyExc Unit :=
  if n ∈ env then .ok () else .error (.nameError n)

/-- `except Exception` catches a `NameError`, since `NameError` is a
subclass of `Exception` in Python. -/
def catchesException : PyExc → Bool
  | .nameError _ => true

/-- The observable outcomes of the notebook's device-mapping cell. -/
inductive MapCellOutcome where
  | mappedToDevice
  | printedModelNotCompatible
  | printedNoDevices
  | raised (e : PyExc)
  deriving DecidableEq, Repr

/-- The device-mapping cell, embedded from the notebook: when at least
one Akida device is available it evaluates `model_akida.map(device)`
inside `try`; any exception reaching the `except Exception` clause
prints the not-compatible message; with no devices it prints the
no-devices message. -/
def runMapCell (env : List PyName) (numDevices : ℕ) : MapCellOutcome :=
  if 0 < numDevices then
    match lookupName env .model_akida with
    | .ok _ => .mappedToDevice
    | .error e =>
        if catchesException e then .printedModelNotCompatible else .raised e
  else .printedNoDevices

/-- C10. The device-mapping cell never maps: `model_akida` is bound
nowhere earlier in the notebook, so whenever at least one device is
available the call `model_akida.map(device)` raises `NameError`, the
`except Exception` clause catches it and prints the misleading
not-compatible message, and the model is never mapped onto a device. -/
theorem mapping_cell_never_maps (n : ℕ) (hn : 0 < n) :
    PyName.model_akida ∉ notebookBoundNames
      ∧ lookupName notebookBoundNames PyName.model_akida
          = Except.error (PyExc.nameError PyName.model_akida)
      ∧ runMapCell notebookBoundNames n = MapCellOutcome.printedModelNotCompatible
      ∧ runMapCell notebookBoundNames n ≠ MapCellOutcome.mappedToDevice := by
  refine ⟨by decide, by rfl, ?_, ?_⟩
  · rw [runMapCell, if_pos hn]
    decide
  · rw [runMapCell, if_pos hn]
    decide

/-- Witness for C10: with exactly one available device the cell prints
the not-compatible message and does not map. -/
theorem mapping_cell_never_maps_witness :
    0 < 1
      ∧ (PyName.model_akida ∉ notebookBoundNames
        ∧ lookupName notebookBoundNames PyName.model_akida
            = Except.error (PyExc.nameError PyName.model_akida)
        ∧ runMapCell notebookBoundNames 1 = MapCellOutcome.printedModelNotCompatible
        ∧ runMapCell notebookBoundNames 1 ≠ MapCellOutcome.mappedToDevice) :=
  ⟨by decide, mapping_cell_never_maps 1 (by decide)⟩

end SpatioTemporal
